import Mathlib

/-!
# Verification of the expense-splitting core of `src/app.py`

The core of the repository is the function `calculate_splits` (src/app.py,
lines 51-75).  It takes the list of expense records, sums the amounts per
payer into an insertion-ordered dictionary (`defaultdict`), computes each
participant's balance against the fair share (rounded to 2 decimal places
with Python's banker's rounding), partitions participants into payers
(negative balance, stored by magnitude) and receivers (positive balance),
and finally runs a two-pointer greedy sweep emitting transfer instructions.

We embed the computation shallowly: monetary amounts become rationals
(`ℚ`), the insertion-ordered dictionary becomes an association list that
updates in place and appends new keys, and the `while` loop becomes a
fuel-indexed recursion (`sweepAux`), where the fuel is the loop-iteration
bound `|payers| + |receivers|`; fuel-irrelevance above that bound is proved
below, which is exactly the termination of the source loop.
-/

/-- An expense record as consumed by `calculate_splits`: the payer's name
(`e["name"]`) and the amount (`float(e["amount"])`), embedded as `ℚ`. -/
structure Expense where
  name : String
  amount : ℚ
deriving DecidableEq

/-- One settlement instruction.  The source emits the formatted string
`"💸 {payer} should pay ₹{transfer} to {receiver}"`; we keep the three
fields that the string interpolates. -/
structure Txn where
  payer : String
  amount : ℚ
  receiver : String
deriving DecidableEq

/-- `totals[e["name"]] += float(e["amount"])` on an insertion-ordered
dictionary: update the existing key in place, or append a fresh key at the
end (a `defaultdict(float)` starts absent keys at `0`). -/
def addExpense (totals : List (String × ℚ)) (e : Expense) : List (String × ℚ) :=
  match totals with
  | [] => [(e.name, e.amount)]
  | (p, a) :: rest =>
      if p = e.name then (p, a + e.amount) :: rest
      else (p, a) :: addExpense rest e

/-- The `totals` dictionary after the `for e in expenses` loop
(src/app.py lines 54-56). -/
def totalsOf (expenses : List Expense) : List (String × ℚ) :=
  expenses.foldl addExpense []

/-- Python's `round` to an integer: round half to even (banker's
rounding).  `⌊x⌋` when the fractional part is below `1/2`, `⌊x⌋ + 1` when
above, and the even neighbour on an exact tie. -/
def roundHalfEven (x : ℚ) : ℤ :=
  if x - ⌊x⌋ < 1/2 then ⌊x⌋
  else if 1/2 < x - ⌊x⌋ then ⌊x⌋ + 1
  else if ⌊x⌋ % 2 = 0 then ⌊x⌋ else ⌊x⌋ + 1

/-- Python's `round(x, 2)`. -/
def pyRound2 (x : ℚ) : ℚ :=
  (roundHalfEven (x * 100) : ℚ) / 100

/-- `balances = {p: round(totals[p] - avg, 2) for p in people}`
(src/app.py lines 57-59), with `avg = sum(totals.values()) / len(people)`.
The keys of `totals` are distinct, so looking `totals[p]` up for each `p`
in `people = list(totals.keys())` is the map over the entries in order. -/
def balancesOf (expenses : List Expense) : List (String × ℚ) :=
  let totals := totalsOf expenses
  let avg := (totals.map Prod.snd).sum / (totals.length : ℚ)
  totals.map (fun pa => (pa.1, pyRound2 (pa.2 - avg)))

/-- `payers = [(p, -amt) for p, amt in balances.items() if amt < 0]`. -/
def payersOf (expenses : List Expense) : List (String × ℚ) :=
  ((balancesOf expenses).filter (fun pa => pa.2 < 0)).map (fun pa => (pa.1, -pa.2))

/-- `receivers = [(p, amt) for p, amt in balances.items() if amt > 0]`. -/
def receiversOf (expenses : List Expense) : List (String × ℚ) :=
  (balancesOf expenses).filter (fun pa => 0 < pa.2)

/-- The `while i < len(payers) and j < len(receivers)` sweep (src/app.py
lines 62-74), with a fuel parameter standing for the remaining permitted
loop iterations.  Each iteration takes the current payer and receiver,
transfers `min pay_amt recv_amt`, emits the transaction, and advances past
whichever side reached zero, writing the reduced amount back otherwise
(`payers[i] = (payer, pay_amt)`), which here re-conses the reduced head. -/
def sweepAux : Nat → List (String × ℚ) → List (String × ℚ) → List Txn
  | 0, _, _ => []
  | _ + 1, [], _ => []
  | _ + 1, _, [] => []
  | fuel + 1, (payer, pay_amt) :: ps, (receiver, recv_amt) :: rs =>
      if pay_amt - min pay_amt recv_amt = 0 then
        if recv_amt - min pay_amt recv_amt = 0 then
          ⟨payer, min pay_amt recv_amt, receiver⟩ :: sweepAux fuel ps rs
        else
          ⟨payer, min pay_amt recv_amt, receiver⟩ ::
            sweepAux fuel ps ((receiver, recv_amt - min pay_amt recv_amt) :: rs)
      else
        if recv_amt - min pay_amt recv_amt = 0 then
          ⟨payer, min pay_amt recv_amt, receiver⟩ ::
            sweepAux fuel ((payer, pay_amt - min pay_amt recv_amt) :: ps) rs
        else
          ⟨payer, min pay_amt recv_amt, receiver⟩ ::
            sweepAux fuel ((payer, pay_amt - min pay_amt recv_amt) :: ps)
              ((receiver, recv_amt - min pay_amt recv_amt) :: rs)

/-- The sweep with enough fuel for every iteration the loop can make (the
loop advances at least one cursor per iteration, proved below). -/
def sweep (ps rs : List (String × ℚ)) : List Txn :=
  sweepAux (ps.length + rs.length) ps rs

/-- The transaction list `calculate_splits` builds on a non-empty input. -/
def txnsOf (expenses : List Expense) : List Txn :=
  sweep (payersOf expenses) (receiversOf expenses)

/-- The string the source appends for one transaction. -/
def formatTxn (t : Txn) : String :=
  "💸 " ++ t.payer ++ " should pay ₹" ++ toString t.amount ++ " to " ++ t.receiver

/-- `calculate_splits` (src/app.py lines 51-75): on an empty input it
returns the one-element signal list, otherwise the formatted transactions
of the sweep. -/
def calculate_splits (expenses : List Expense) : List String :=
  if expenses.isEmpty then ["No expenses yet to calculate split."]
  else (txnsOf expenses).map formatTxn

/-- Total of the amounts of an association-list side. -/
def sumAmts (l : List (String × ℚ)) : ℚ :=
  (l.map Prod.snd).sum

/-- Total amount a participant pays across a transaction list. -/
def paidBy (q : String) : List Txn → ℚ
  | [] => 0
  | t :: ts => (if t.payer = q then t.amount else 0) + paidBy q ts

/-- Total amount a participant receives across a transaction list. -/
def recvBy (q : String) : List Txn → ℚ
  | [] => 0
  | t :: ts => (if t.receiver = q then t.amount else 0) + recvBy q ts

/-- Amount recorded for a name on one side of the sweep (the sum over its
entries; the lists the code builds carry each name at most once). -/
def owedIn (q : String) : List (String × ℚ) → ℚ
  | [] => 0
  | pa :: l => (if pa.1 = q then pa.2 else 0) + owedIn q l

/-! ## Association-list lemmas for the `totals` dictionary -/

theorem addExpense_keys (l : List (String × ℚ)) (e : Expense) :
    (addExpense l e).map Prod.fst =
      if e.name ∈ l.map Prod.fst then l.map Prod.fst
      else l.map Prod.fst ++ [e.name] := by
  induction l with
  | nil => simp [addExpense]
  | cons pa rest ih =>
    obtain ⟨p, a⟩ := pa
    by_cases h : p = e.name
    · subst h
      simp [addExpense]
    · simp only [addExpense, if_neg h, List.map_cons, ih, List.mem_cons]
      have h' : ¬ e.name = p := fun hc => h hc.symm
      split_ifs with h1 h2 h3 <;> simp_all

theorem addExpense_keys_nodup (l : List (String × ℚ)) (e : Expense)
    (h : (l.map Prod.fst).Nodup) : ((addExpense l e).map Prod.fst).Nodup := by
  rw [addExpense_keys]
  split_ifs with hm
  · exact h
  · simp [List.nodup_append, h, hm]

theorem foldl_addExpense_keys_nodup (es : List Expense) :
    ∀ acc : List (String × ℚ), (acc.map Prod.fst).Nodup →
      ((es.foldl addExpense acc).map Prod.fst).Nodup := by
  induction es with
  | nil => intro acc h; simpa using h
  | cons e es ih =>
    intro acc h
    exact ih (addExpense acc e) (addExpense_keys_nodup acc e h)

theorem totalsOf_keys_nodup (es : List Expense) :
    ((totalsOf es).map Prod.fst).Nodup :=
  foldl_addExpense_keys_nodup es [] (by simp)

theorem addExpense_sumAmts (l : List (String × ℚ)) (e : Expense) :
    sumAmts (addExpense l e) = sumAmts l + e.amount := by
  induction l with
  | nil => simp [addExpense, sumAmts]
  | cons pa rest ih =>
    obtain ⟨p, a⟩ := pa
    by_cases h : p = e.name
    · subst h
      simp [addExpense, sumAmts]
      ring
    · simp only [addExpense, if_neg h, sumAmts, List.map_cons, List.sum_cons] at ih ⊢
      rw [ih]
      ring

theorem foldl_addExpense_sumAmts (es : List Expense) :
    ∀ acc : List (String × ℚ),
      sumAmts (es.foldl addExpense acc) = sumAmts acc + (es.map Expense.amount).sum := by
  induction es with
  | nil => intro acc; simp
  | cons e es ih =>
    intro acc
    simp only [List.foldl_cons, List.map_cons, List.sum_cons, ih, addExpense_sumAmts]
    ring

theorem totalsOf_sumAmts (es : List Expense) :
    sumAmts (totalsOf es) = (es.map Expense.amount).sum := by
  have := foldl_addExpense_sumAmts es []
  simpa [totalsOf, sumAmts] using this

theorem addExpense_ne_nil (l : List (String × ℚ)) (e : Expense) :
    addExpense l e ≠ [] := by
  cases l with
  | nil => simp [addExpense]
  | cons pa rest =>
    obtain ⟨p, a⟩ := pa
    dsimp [addExpense]
    split <;> simp

theorem foldl_addExpense_ne_nil (es : List Expense) :
    ∀ acc : List (String × ℚ), acc ≠ [] → es.foldl addExpense acc ≠ [] := by
  induction es with
  | nil => intro acc h; simpa using h
  | cons e es ih =>
    intro acc _
    exact ih (addExpense acc e) (addExpense_ne_nil acc e)

theorem totalsOf_ne_nil (es : List Expense) (h : es ≠ []) : totalsOf es ≠ [] := by
  cases es with
  | nil => exact absurd rfl h
  | cons e es =>
    exact foldl_addExpense_ne_nil es (addExpense [] e) (addExpense_ne_nil [] e)

/-! ## First-occurrence order of the `totals` keys -/

/-- Modelled from the spec's ordering policy (§4.2): the participants "in
the order in which each first appears ... by payer in the original record
sequence".  Used only to compare the code's key order against the spec's
words. -/
def specFirstOccurrenceOrder (names : List String) : List String :=
  names.foldl (fun ks n => if n ∈ ks then ks else ks ++ [n]) []

theorem foldl_addExpense_keys (es : List Expense) :
    ∀ acc : List (String × ℚ),
      (es.foldl addExpense acc).map Prod.fst =
        (es.map Expense.name).foldl (fun ks n => if n ∈ ks then ks else ks ++ [n])
          (acc.map Prod.fst) := by
  induction es with
  | nil => intro acc; simp
  | cons e es ih =>
    intro acc
    simp only [List.foldl_cons, List.map_cons, ih, addExpense_keys]

theorem totalsOf_keys_firstOcc (es : List Expense) :
    (totalsOf es).map Prod.fst = specFirstOccurrenceOrder (es.map Expense.name) := by
  simpa using foldl_addExpense_keys es []

/-! ## Reading one name's amount off a side of the sweep -/

theorem owedIn_eq_zero (q : String) (l : List (String × ℚ))
    (h : q ∉ l.map Prod.fst) : owedIn q l = 0 := by
  induction l with
  | nil => simp [owedIn]
  | cons pa rest ih =>
    simp only [List.map_cons, List.mem_cons] at h
    push_neg at h
    simp only [owedIn, ih h.2, add_zero]
    rw [if_neg (fun hc => h.1 hc.symm)]

theorem owedIn_eq_of_mem (l : List (String × ℚ)) (q : String) (a : ℚ)
    (hnd : (l.map Prod.fst).Nodup) (hm : (q, a) ∈ l) : owedIn q l = a := by
  induction l with
  | nil => simp at hm
  | cons pa rest ih =>
    simp only [List.map_cons, List.nodup_cons] at hnd
    rcases List.mem_cons.mp hm with h | h
    · subst h
      simp only [owedIn, if_pos rfl, owedIn_eq_zero q rest hnd.1, add_zero]
      simp
    · have hne : pa.1 ≠ q := by
        intro hc
        exact hnd.1 (hc ▸ List.mem_map_of_mem Prod.fst h)
      simp [owedIn, hne, ih hnd.2 h]

theorem owedIn_nonneg (q : String) (l : List (String × ℚ))
    (h : ∀ pa ∈ l, 0 < pa.2) : 0 ≤ owedIn q l := by
  induction l with
  | nil => simp [owedIn]
  | cons pa rest ih =>
    have h1 := h pa (List.mem_cons_self pa rest)
    have h2 := ih (fun x hx => h x (List.mem_cons_of_mem pa hx))
    simp only [owedIn]
    split_ifs <;> linarith

theorem owedIn_le_sumAmts (q : String) (l : List (String × ℚ))
    (h : ∀ pa ∈ l, 0 < pa.2) : owedIn q l ≤ sumAmts l := by
  induction l with
  | nil => simp [owedIn, sumAmts]
  | cons pa rest ih =>
    have h1 := h pa (List.mem_cons_self pa rest)
    have h2 := ih (fun x hx => h x (List.mem_cons_of_mem pa hx))
    simp only [owedIn, sumAmts, List.map_cons, List.sum_cons] at h2 ⊢
    split_ifs <;> linarith

theorem sumAmts_nonneg (l : List (String × ℚ)) (h : ∀ pa ∈ l, 0 < pa.2) :
    0 ≤ sumAmts l := by
  induction l with
  | nil => simp [sumAmts]
  | cons pa rest ih =>
    have h1 := h pa (List.mem_cons_self pa rest)
    have h2 := ih (fun x hx => h x (List.mem_cons_of_mem pa hx))
    simp only [sumAmts, List.map_cons, List.sum_cons] at h2 ⊢
    linarith

/-! ## Small unfolding lemmas -/

@[simp] theorem sumAmts_nil : sumAmts [] = 0 := rfl

@[simp] theorem sumAmts_cons (pa : String × ℚ) (l : List (String × ℚ)) :
    sumAmts (pa :: l) = pa.2 + sumAmts l := by
  simp [sumAmts]

@[simp] theorem owedIn_nil (q : String) : owedIn q [] = 0 := rfl

@[simp] theorem owedIn_cons (q : String) (pa : String × ℚ) (l : List (String × ℚ)) :
    owedIn q (pa :: l) = (if pa.1 = q then pa.2 else 0) + owedIn q l := rfl

@[simp] theorem paidBy_nil (q : String) : paidBy q [] = 0 := rfl

@[simp] theorem paidBy_cons (q : String) (t : Txn) (ts : List Txn) :
    paidBy q (t :: ts) = (if t.payer = q then t.amount else 0) + paidBy q ts := rfl

@[simp] theorem recvBy_nil (q : String) : recvBy q [] = 0 := rfl

@[simp] theorem recvBy_cons (q : String) (t : Txn) (ts : List Txn) :
    recvBy q (t :: ts) = (if t.receiver = q then t.amount else 0) + recvBy q ts := rfl

/-! ## The banker's rounding error bound -/

theorem roundHalfEven_err (x : ℚ) : |(roundHalfEven x : ℚ) - x| ≤ 1/2 := by
  have h0 : (⌊x⌋ : ℚ) ≤ x := Int.floor_le x
  have h1 : x < ⌊x⌋ + 1 := Int.lt_floor_add_one x
  unfold roundHalfEven
  split_ifs with hf hg he <;> rw [abs_le] <;> push_cast <;> constructor <;> linarith

theorem pyRound2_err (x : ℚ) : |pyRound2 x - x| ≤ 1/200 := by
  have h := roundHalfEven_err (x * 100)
  rw [abs_le] at h ⊢
  unfold pyRound2
  constructor <;> [linarith [h.1]; linarith [h.2]]

theorem sum_map_pyRound2_err (l : List ℚ) :
    |(l.map pyRound2).sum - l.sum| ≤ (l.length : ℚ) / 200 := by
  induction l with
  | nil => simp
  | cons x l ih =>
    have hx := pyRound2_err x
    simp only [List.map_cons, List.sum_cons, List.length_cons]
    have : pyRound2 x + (l.map pyRound2).sum - (x + l.sum) =
        (pyRound2 x - x) + ((l.map pyRound2).sum - l.sum) := by ring
    rw [this]
    calc |(pyRound2 x - x) + ((l.map pyRound2).sum - l.sum)|
        ≤ |pyRound2 x - x| + |(l.map pyRound2).sum - l.sum| := abs_add _ _
      _ ≤ 1/200 + (l.length : ℚ) / 200 := by linarith
      _ = ((l.length : ℚ) + 1) / 200 := by ring
      _ = (((l.length + 1 : ℕ)) : ℚ) / 200 := by push_cast; ring

/-! ## The balances: shape and sum -/

/-- `avg = sum(totals.values()) / len(people)` (src/app.py line 58). -/
def avgOf (expenses : List Expense) : ℚ :=
  sumAmts (totalsOf expenses) / ((totalsOf expenses).length : ℚ)

theorem balancesOf_eq (es : List Expense) :
    balancesOf es = (totalsOf es).map (fun pa => (pa.1, pyRound2 (pa.2 - avgOf es))) := rfl

theorem balancesOf_keys (es : List Expense) :
    (balancesOf es).map Prod.fst = (totalsOf es).map Prod.fst := by
  rw [balancesOf_eq, List.map_map]
  rfl

theorem balancesOf_keys_nodup (es : List Expense) :
    ((balancesOf es).map Prod.fst).Nodup := by
  rw [balancesOf_keys]
  exact totalsOf_keys_nodup es

theorem balancesOf_length (es : List Expense) :
    (balancesOf es).length = (totalsOf es).length := by
  rw [balancesOf_eq, List.length_map]

theorem sum_map_sub_const (l : List (String × ℚ)) (c : ℚ) :
    (l.map (fun pa => pa.2 - c)).sum = sumAmts l - (l.length : ℚ) * c := by
  induction l with
  | nil => simp [sumAmts]
  | cons pa rest ih =>
    simp only [List.map_cons, List.sum_cons, sumAmts, List.length_cons, ih]
    push_cast
    ring

theorem balancesOf_snd (es : List Expense) :
    (balancesOf es).map Prod.snd =
      ((totalsOf es).map (fun pa => pa.2 - avgOf es)).map pyRound2 := by
  rw [balancesOf_eq, List.map_map, List.map_map]
  rfl

theorem balances_sum_err (es : List Expense) (h : es ≠ []) :
    |((balancesOf es).map Prod.snd).sum| ≤ ((balancesOf es).length : ℚ) / 200 := by
  have hne : totalsOf es ≠ [] := totalsOf_ne_nil es h
  have hlen : (0 : ℚ) < ((totalsOf es).length : ℚ) := by
    have : 0 < (totalsOf es).length := List.length_pos.mpr hne
    exact_mod_cast this
  have hzero : ((totalsOf es).map (fun pa => pa.2 - avgOf es)).sum = 0 := by
    rw [sum_map_sub_const, avgOf]
    field_simp
  have herr := sum_map_pyRound2_err ((totalsOf es).map (fun pa => pa.2 - avgOf es))
  rw [hzero, sub_zero, List.length_map] at herr
  rw [balancesOf_snd, balancesOf_length]
  exact herr

/-! ## The two-pointer sweep: basic shape -/

theorem sweepAux_nil_left (n : Nat) (rs : List (String × ℚ)) :
    sweepAux n [] rs = [] := by
  cases n with
  | zero => rfl
  | succ n => cases rs <;> rfl

theorem sweepAux_nil_right (n : Nat) (ps : List (String × ℚ)) :
    sweepAux n ps [] = [] := by
  cases n with
  | zero => rfl
  | succ n => cases ps <;> rfl

/-- `transfer = min(pay_amt, recv_amt)` always zeroes at least one side:
the fourth syntactic branch of `sweepAux` is unreachable. -/
theorem min_sub_cases (a b : ℚ) : a - min a b = 0 ∨ b - min a b = 0 := by
  rcases min_choice a b with h | h
  · left; rw [h, sub_self]
  · right; rw [h, sub_self]

theorem sweepAux_congr (n : Nat) :
    ∀ (m : Nat) (ps rs : List (String × ℚ)),
      ps.length + rs.length ≤ n → ps.length + rs.length ≤ m →
      sweepAux n ps rs = sweepAux m ps rs := by
  induction n with
  | zero =>
    intro m ps rs hn _
    have hps : ps = [] := by cases ps <;> simp_all
    have hrs : rs = [] := by cases rs <;> simp_all
    subst hps; subst hrs
    rw [sweepAux_nil_left, sweepAux_nil_left]
  | succ n ih =>
    intro m ps rs hn hm
    rcases ps with _ | ⟨⟨p, a⟩, ps⟩
    · rw [sweepAux_nil_left, sweepAux_nil_left]
    rcases rs with _ | ⟨⟨r, b⟩, rs⟩
    · rw [sweepAux_nil_right, sweepAux_nil_right]
    rcases m with _ | m
    · simp at hm
    simp only [List.length_cons] at hn hm
    simp only [sweepAux]
    split_ifs with h1 h2 h3
    · rw [ih m ps rs (by omega) (by omega)]
    · rw [ih m ps ((r, b - min a b) :: rs) (by simp; omega) (by simp; omega)]
    · rw [ih m ((p, a - min a b) :: ps) rs (by simp; omega) (by simp; omega)]
    · rcases min_sub_cases a b with h | h
      · exact absurd h h1
      · exact absurd h h3

theorem sweep_eq_sweepAux (k : Nat) (ps rs : List (String × ℚ))
    (h : ps.length + rs.length ≤ k) : sweepAux k ps rs = sweep ps rs :=
  sweepAux_congr k (ps.length + rs.length) ps rs h le_rfl

theorem sweepAux_length_le (n : Nat) :
    ∀ (ps rs : List (String × ℚ)), ps ≠ [] → rs ≠ [] →
      (sweepAux n ps rs).length + 1 ≤ ps.length + rs.length := by
  induction n with
  | zero =>
    intro ps rs hps hrs
    rcases ps with _ | ⟨pa, ps⟩
    · exact absurd rfl hps
    rcases rs with _ | ⟨rb, rs⟩
    · exact absurd rfl hrs
    simp [sweepAux]
    omega
  | succ n ih =>
    intro ps rs hps hrs
    rcases ps with _ | ⟨⟨p, a⟩, ps⟩
    · exact absurd rfl hps
    rcases rs with _ | ⟨⟨r, b⟩, rs⟩
    · exact absurd rfl hrs
    simp only [sweepAux]
    split_ifs with h1 h2 h3
    · rcases ps with _ | ⟨pa', ps⟩
      · rw [sweepAux_nil_left]; simp only [List.length_cons, List.length_nil]; omega
      rcases rs with _ | ⟨rb', rs⟩
      · rw [sweepAux_nil_right]; simp only [List.length_cons, List.length_nil]; omega
      have := ih (pa' :: ps) (rb' :: rs) (by simp) (by simp)
      simp at this ⊢
      omega
    · rcases ps with _ | ⟨pa', ps⟩
      · rw [sweepAux_nil_left]; simp only [List.length_cons, List.length_nil]; omega
      have := ih (pa' :: ps) ((r, b - min a b) :: rs) (by simp) (by simp)
      simp at this ⊢
      omega
    · rcases rs with _ | ⟨rb', rs⟩
      · rw [sweepAux_nil_right]; simp only [List.length_cons, List.length_nil]; omega
      have := ih ((p, a - min a b) :: ps) (rb' :: rs) (by simp) (by simp)
      simp at this ⊢
      omega
    · rcases min_sub_cases a b with h | h
      · exact absurd h h1
      · exact absurd h h3

/-! ## The sweep: every emitted amount is positive, names come from the
input sides -/

theorem sweepAux_amount_pos (n : Nat) :
    ∀ (ps rs : List (String × ℚ)),
      (∀ pa ∈ ps, 0 < pa.2) → (∀ pa ∈ rs, 0 < pa.2) →
      ∀ t ∈ sweepAux n ps rs, 0 < t.amount := by
  induction n with
  | zero => intro ps rs _ _ t ht; simp [sweepAux] at ht
  | succ n ih =>
    intro ps rs hps hrs t ht
    rcases ps with _ | ⟨⟨p, a⟩, ps⟩
    · rw [sweepAux_nil_left] at ht; simp at ht
    rcases rs with _ | ⟨⟨r, b⟩, rs⟩
    · rw [sweepAux_nil_right] at ht; simp at ht
    have hpa : 0 < a := hps (p, a) (List.mem_cons_self _ _)
    have hrb : 0 < b := hrs (r, b) (List.mem_cons_self _ _)
    have hps' : ∀ pa ∈ ps, 0 < pa.2 := fun x hx => hps x (List.mem_cons_of_mem _ hx)
    have hrs' : ∀ pa ∈ rs, 0 < pa.2 := fun x hx => hrs x (List.mem_cons_of_mem _ hx)
    simp only [sweepAux] at ht
    split_ifs at ht with h1 h2 h3
    · rcases List.mem_cons.mp ht with h | h
      · subst h; exact lt_min hpa hrb
      · exact ih ps rs hps' hrs' t h
    · rcases List.mem_cons.mp ht with h | h
      · subst h; exact lt_min hpa hrb
      · refine ih ps ((r, b - min a b) :: rs) hps' ?_ t h
        intro x hx
        rcases List.mem_cons.mp hx with h' | h'
        · subst h'
          exact lt_of_le_of_ne (sub_nonneg.mpr (min_le_right a b)) (Ne.symm h2)
        · exact hrs' x h'
    · rcases List.mem_cons.mp ht with h | h
      · subst h; exact lt_min hpa hrb
      · refine ih ((p, a - min a b) :: ps) rs ?_ hrs' t h
        intro x hx
        rcases List.mem_cons.mp hx with h' | h'
        · subst h'
          exact lt_of_le_of_ne (sub_nonneg.mpr (min_le_left a b)) (Ne.symm h1)
        · exact hps' x h'
    · rcases min_sub_cases a b with h | h
      · exact absurd h h1
      · exact absurd h h3

theorem sweepAux_names (n : Nat) :
    ∀ (ps rs : List (String × ℚ)) (t : Txn), t ∈ sweepAux n ps rs →
      t.payer ∈ ps.map Prod.fst ∧ t.receiver ∈ rs.map Prod.fst := by
  induction n with
  | zero => intro ps rs t ht; simp [sweepAux] at ht
  | succ n ih =>
    intro ps rs t ht
    rcases ps with _ | ⟨⟨p, a⟩, ps⟩
    · rw [sweepAux_nil_left] at ht; simp at ht
    rcases rs with _ | ⟨⟨r, b⟩, rs⟩
    · rw [sweepAux_nil_right] at ht; simp at ht
    simp only [sweepAux] at ht
    split_ifs at ht with h1 h2 h3
    · rcases List.mem_cons.mp ht with h | h
      · subst h; simp
      · obtain ⟨hp, hr⟩ := ih ps rs t h
        exact ⟨List.mem_cons_of_mem _ hp, List.mem_cons_of_mem _ hr⟩
    · rcases List.mem_cons.mp ht with h | h
      · subst h; simp
      · obtain ⟨hp, hr⟩ := ih ps ((r, b - min a b) :: rs) t h
        simp only [List.map_cons] at hr ⊢
        exact ⟨List.mem_cons_of_mem _ hp, hr⟩
    · rcases List.mem_cons.mp ht with h | h
      · subst h; simp
      · obtain ⟨hp, hr⟩ := ih ((p, a - min a b) :: ps) rs t h
        simp only [List.map_cons] at hp ⊢
        exact ⟨hp, List.mem_cons_of_mem _ hr⟩
    · rcases min_sub_cases a b with h | h
      · exact absurd h h1
      · exact absurd h h3

theorem paidBy_eq_zero (q : String) (ts : List Txn)
    (h : ∀ t ∈ ts, t.payer ≠ q) : paidBy q ts = 0 := by
  induction ts with
  | nil => simp
  | cons t ts ih =>
    have h1 := h t (List.mem_cons_self _ _)
    have h2 := ih (fun x hx => h x (List.mem_cons_of_mem _ hx))
    simp [h1, h2]

theorem recvBy_eq_zero (q : String) (ts : List Txn)
    (h : ∀ t ∈ ts, t.receiver ≠ q) : recvBy q ts = 0 := by
  induction ts with
  | nil => simp
  | cons t ts ih =>
    have h1 := h t (List.mem_cons_self _ _)
    have h2 := ih (fun x hx => h x (List.mem_cons_of_mem _ hx))
    simp [h1, h2]

/-! ## The sweep: per-participant residuals and the transferred total -/

theorem sweepAux_payer_residual (n : Nat) :
    ∀ (ps rs : List (String × ℚ)) (q : String),
      ps.length + rs.length ≤ n →
      (∀ pa ∈ ps, 0 < pa.2) → (∀ pa ∈ rs, 0 < pa.2) →
      0 ≤ owedIn q ps - paidBy q (sweepAux n ps rs) ∧
        owedIn q ps - paidBy q (sweepAux n ps rs) ≤
          sumAmts ps - min (sumAmts ps) (sumAmts rs) := by
  induction n with
  | zero =>
    intro ps rs q hlen hps hrs
    have hps0 : ps = [] := by cases ps <;> simp_all
    have hrs0 : rs = [] := by cases rs <;> simp_all
    subst hps0; subst hrs0
    simp [sweepAux]
  | succ n ih =>
    intro ps rs q hlen hps hrs
    rcases ps with _ | ⟨⟨p, a⟩, ps⟩
    · have h0 : (0:ℚ) ≤ sumAmts rs := sumAmts_nonneg rs hrs
      rw [sweepAux_nil_left]
      simp [min_eq_left h0]
    rcases rs with _ | ⟨⟨r, b⟩, rs⟩
    · have h0 : (0:ℚ) ≤ sumAmts ((p, a) :: ps) := sumAmts_nonneg _ hps
      rw [sweepAux_nil_right]
      constructor
      · simpa using owedIn_nonneg q ((p, a) :: ps) hps
      · rw [show sumAmts ([] : List (String × ℚ)) = 0 from rfl, min_eq_right h0]
        simpa using owedIn_le_sumAmts q ((p, a) :: ps) hps
    have hps' : ∀ pa ∈ ps, 0 < pa.2 := fun x hx => hps x (List.mem_cons_of_mem _ hx)
    have hrs' : ∀ pa ∈ rs, 0 < pa.2 := fun x hx => hrs x (List.mem_cons_of_mem _ hx)
    simp only [List.length_cons] at hlen
    have hml := min_le_left a b
    have hmr := min_le_right a b
    simp only [sweepAux]
    split_ifs with h1 h2 h3
    · obtain ⟨ih1, ih2⟩ := ih ps rs q (by omega) hps' hrs'
      simp only [paidBy_cons, owedIn_cons, sumAmts_cons]
      have hca : (if p = q then a else 0) - (if p = q then min a b else 0) = 0 := by
        split_ifs with h
        · exact h1
        · simp
      have hMc := min_choice (a + sumAmts ps) (b + sumAmts rs)
      have hMl := min_le_left (a + sumAmts ps) (b + sumAmts rs)
      have hMr := min_le_right (a + sumAmts ps) (b + sumAmts rs)
      have hmc := min_choice (sumAmts ps) (sumAmts rs)
      have hml' := min_le_left (sumAmts ps) (sumAmts rs)
      have hmr' := min_le_right (sumAmts ps) (sumAmts rs)
      constructor
      · linarith
      · rcases hMc with h | h <;> rcases hmc with h' | h' <;> linarith
    · have hbpos : 0 < b - min a b :=
        lt_of_le_of_ne (sub_nonneg.mpr hmr) (Ne.symm h2)
      have hrs2 : ∀ pa ∈ (r, b - min a b) :: rs, 0 < pa.2 := by
        intro x hx
        rcases List.mem_cons.mp hx with h' | h'
        · subst h'; exact hbpos
        · exact hrs' x h'
      obtain ⟨ih1, ih2⟩ := ih ps ((r, b - min a b) :: rs) q
        (by simp only [List.length_cons]; omega) hps' hrs2
      simp only [paidBy_cons, owedIn_cons, sumAmts_cons] at ih1 ih2 ⊢
      have hca : (if p = q then a else 0) - (if p = q then min a b else 0) = 0 := by
        split_ifs with h
        · exact h1
        · simp
      have hMc := min_choice (a + sumAmts ps) (b + sumAmts rs)
      have hMl := min_le_left (a + sumAmts ps) (b + sumAmts rs)
      have hMr := min_le_right (a + sumAmts ps) (b + sumAmts rs)
      have hmc := min_choice (sumAmts ps) (b - min a b + sumAmts rs)
      have hml' := min_le_left (sumAmts ps) (b - min a b + sumAmts rs)
      have hmr' := min_le_right (sumAmts ps) (b - min a b + sumAmts rs)
      constructor
      · linarith
      · rcases hMc with h | h <;> rcases hmc with h' | h' <;> linarith
    · have hapos : 0 < a - min a b :=
        lt_of_le_of_ne (sub_nonneg.mpr hml) (Ne.symm h1)
      have hps2 : ∀ pa ∈ (p, a - min a b) :: ps, 0 < pa.2 := by
        intro x hx
        rcases List.mem_cons.mp hx with h' | h'
        · subst h'; exact hapos
        · exact hps' x h'
      obtain ⟨ih1, ih2⟩ := ih ((p, a - min a b) :: ps) rs q
        (by simp only [List.length_cons]; omega) hps2 hrs'
      simp only [paidBy_cons, owedIn_cons, sumAmts_cons] at ih1 ih2 ⊢
      have hca : (if p = q then a else 0) - (if p = q then min a b else 0) =
          (if p = q then a - min a b else 0) := by
        split_ifs with h
        · ring
        · ring
      have hMc := min_choice (a + sumAmts ps) (b + sumAmts rs)
      have hMl := min_le_left (a + sumAmts ps) (b + sumAmts rs)
      have hMr := min_le_right (a + sumAmts ps) (b + sumAmts rs)
      have hmc := min_choice (a - min a b + sumAmts ps) (sumAmts rs)
      have hml' := min_le_left (a - min a b + sumAmts ps) (sumAmts rs)
      have hmr' := min_le_right (a - min a b + sumAmts ps) (sumAmts rs)
      constructor
      · linarith
      · rcases hMc with h | h <;> rcases hmc with h' | h' <;> linarith
    · rcases min_sub_cases a b with h | h
      · exact absurd h h1
      · exact absurd h h3

theorem sweepAux_receiver_residual (n : Nat) :
    ∀ (ps rs : List (String × ℚ)) (q : String),
      ps.length + rs.length ≤ n →
      (∀ pa ∈ ps, 0 < pa.2) → (∀ pa ∈ rs, 0 < pa.2) →
      0 ≤ owedIn q rs - recvBy q (sweepAux n ps rs) ∧
        owedIn q rs - recvBy q (sweepAux n ps rs) ≤
          sumAmts rs - min (sumAmts ps) (sumAmts rs) := by
  induction n with
  | zero =>
    intro ps rs q hlen hps hrs
    have hps0 : ps = [] := by cases ps <;> simp_all
    have hrs0 : rs = [] := by cases rs <;> simp_all
    subst hps0; subst hrs0
    simp [sweepAux]
  | succ n ih =>
    intro ps rs q hlen hps hrs
    rcases ps with _ | ⟨⟨p, a⟩, ps⟩
    · have h0 : (0:ℚ) ≤ sumAmts rs := sumAmts_nonneg rs hrs
      rw [sweepAux_nil_left]
      constructor
      · simpa using owedIn_nonneg q rs hrs
      · rw [show sumAmts ([] : List (String × ℚ)) = 0 from rfl, min_eq_left h0]
        simpa using owedIn_le_sumAmts q rs hrs
    rcases rs with _ | ⟨⟨r, b⟩, rs⟩
    · have h0 : (0:ℚ) ≤ sumAmts ((p, a) :: ps) := sumAmts_nonneg _ hps
      rw [sweepAux_nil_right]
      simp [min_eq_right h0]
    have hps' : ∀ pa ∈ ps, 0 < pa.2 := fun x hx => hps x (List.mem_cons_of_mem _ hx)
    have hrs' : ∀ pa ∈ rs, 0 < pa.2 := fun x hx => hrs x (List.mem_cons_of_mem _ hx)
    simp only [List.length_cons] at hlen
    have hml := min_le_left a b
    have hmr := min_le_right a b
    simp only [sweepAux]
    split_ifs with h1 h2 h3
    · obtain ⟨ih1, ih2⟩ := ih ps rs q (by omega) hps' hrs'
      simp only [recvBy_cons, owedIn_cons, sumAmts_cons]
      have hca : (if r = q then b else 0) - (if r = q then min a b else 0) = 0 := by
        split_ifs with h
        · exact h2
        · simp
      have hMc := min_choice (a + sumAmts ps) (b + sumAmts rs)
      have hMl := min_le_left (a + sumAmts ps) (b + sumAmts rs)
      have hMr := min_le_right (a + sumAmts ps) (b + sumAmts rs)
      have hmc := min_choice (sumAmts ps) (sumAmts rs)
      have hml' := min_le_left (sumAmts ps) (sumAmts rs)
      have hmr' := min_le_right (sumAmts ps) (sumAmts rs)
      constructor
      · linarith
      · rcases hMc with h | h <;> rcases hmc with h' | h' <;> linarith
    · have hbpos : 0 < b - min a b :=
        lt_of_le_of_ne (sub_nonneg.mpr hmr) (Ne.symm h2)
      have hrs2 : ∀ pa ∈ (r, b - min a b) :: rs, 0 < pa.2 := by
        intro x hx
        rcases List.mem_cons.mp hx with h' | h'
        · subst h'; exact hbpos
        · exact hrs' x h'
      obtain ⟨ih1, ih2⟩ := ih ps ((r, b - min a b) :: rs) q
        (by simp only [List.length_cons]; omega) hps' hrs2
      simp only [recvBy_cons, owedIn_cons, sumAmts_cons] at ih1 ih2 ⊢
      have hca : (if r = q then b else 0) - (if r = q then min a b else 0) =
          (if r = q then b - min a b else 0) := by
        split_ifs with h
        · ring
        · ring
      have hMc := min_choice (a + sumAmts ps) (b + sumAmts rs)
      have hMl := min_le_left (a + sumAmts ps) (b + sumAmts rs)
      have hMr := min_le_right (a + sumAmts ps) (b + sumAmts rs)
      have hmc := min_choice (sumAmts ps) (b - min a b + sumAmts rs)
      have hml' := min_le_left (sumAmts ps) (b - min a b + sumAmts rs)
      have hmr' := min_le_right (sumAmts ps) (b - min a b + sumAmts rs)
      constructor
      · linarith
      · rcases hMc with h | h <;> rcases hmc with h' | h' <;> linarith
    · have hapos : 0 < a - min a b :=
        lt_of_le_of_ne (sub_nonneg.mpr hml) (Ne.symm h1)
      have hps2 : ∀ pa ∈ (p, a - min a b) :: ps, 0 < pa.2 := by
        intro x hx
        rcases List.mem_cons.mp hx with h' | h'
        · subst h'; exact hapos
        · exact hps' x h'
      obtain ⟨ih1, ih2⟩ := ih ((p, a - min a b) :: ps) rs q
        (by simp only [List.length_cons]; omega) hps2 hrs'
      simp only [recvBy_cons, owedIn_cons, sumAmts_cons] at ih1 ih2 ⊢
      have hca : (if r = q then b else 0) - (if r = q then min a b else 0) = 0 := by
        split_ifs with h
        · exact h3
        · simp
      have hMc := min_choice (a + sumAmts ps) (b + sumAmts rs)
      have hMl := min_le_left (a + sumAmts ps) (b + sumAmts rs)
      have hMr := min_le_right (a + sumAmts ps) (b + sumAmts rs)
      have hmc := min_choice (a - min a b + sumAmts ps) (sumAmts rs)
      have hml' := min_le_left (a - min a b + sumAmts ps) (sumAmts rs)
      have hmr' := min_le_right (a - min a b + sumAmts ps) (sumAmts rs)
      constructor
      · linarith
      · rcases hMc with h | h <;> rcases hmc with h' | h' <;> linarith
    · rcases min_sub_cases a b with h | h
      · exact absurd h h1
      · exact absurd h h3

theorem sweepAux_total (n : Nat) :
    ∀ (ps rs : List (String × ℚ)),
      ps.length + rs.length ≤ n →
      (∀ pa ∈ ps, 0 < pa.2) → (∀ pa ∈ rs, 0 < pa.2) →
      ((sweepAux n ps rs).map Txn.amount).sum = min (sumAmts ps) (sumAmts rs) := by
  induction n with
  | zero =>
    intro ps rs hlen hps hrs
    have hps0 : ps = [] := by cases ps <;> simp_all
    have hrs0 : rs = [] := by cases rs <;> simp_all
    subst hps0; subst hrs0
    simp [sweepAux]
  | succ n ih =>
    intro ps rs hlen hps hrs
    rcases ps with _ | ⟨⟨p, a⟩, ps⟩
    · have h0 : (0:ℚ) ≤ sumAmts rs := sumAmts_nonneg rs hrs
      rw [sweepAux_nil_left]
      simp [min_eq_left h0]
    rcases rs with _ | ⟨⟨r, b⟩, rs⟩
    · have h0 : (0:ℚ) ≤ sumAmts ((p, a) :: ps) := sumAmts_nonneg _ hps
      rw [sweepAux_nil_right, show sumAmts ([] : List (String × ℚ)) = 0 from rfl,
        min_eq_right h0]
      simp
    have hps' : ∀ pa ∈ ps, 0 < pa.2 := fun x hx => hps x (List.mem_cons_of_mem _ hx)
    have hrs' : ∀ pa ∈ rs, 0 < pa.2 := fun x hx => hrs x (List.mem_cons_of_mem _ hx)
    simp only [List.length_cons] at hlen
    have hml := min_le_left a b
    have hmr := min_le_right a b
    simp only [sweepAux]
    split_ifs with h1 h2 h3
    · have := ih ps rs (by omega) hps' hrs'
      simp only [List.map_cons, List.sum_cons, sumAmts_cons, this]
      have hMc := min_choice (a + sumAmts ps) (b + sumAmts rs)
      have hMl := min_le_left (a + sumAmts ps) (b + sumAmts rs)
      have hMr := min_le_right (a + sumAmts ps) (b + sumAmts rs)
      have hmc := min_choice (sumAmts ps) (sumAmts rs)
      have hml' := min_le_left (sumAmts ps) (sumAmts rs)
      have hmr' := min_le_right (sumAmts ps) (sumAmts rs)
      rcases hMc with h | h <;> rcases hmc with h' | h' <;> linarith
    · have hbpos : 0 < b - min a b :=
        lt_of_le_of_ne (sub_nonneg.mpr hmr) (Ne.symm h2)
      have hrs2 : ∀ pa ∈ (r, b - min a b) :: rs, 0 < pa.2 := by
        intro x hx
        rcases List.mem_cons.mp hx with h' | h'
        · subst h'; exact hbpos
        · exact hrs' x h'
      have := ih ps ((r, b - min a b) :: rs)
        (by simp only [List.length_cons]; omega) hps' hrs2
      simp only [List.map_cons, List.sum_cons, sumAmts_cons] at this ⊢
      rw [this]
      have hMc := min_choice (a + sumAmts ps) (b + sumAmts rs)
      have hMl := min_le_left (a + sumAmts ps) (b + sumAmts rs)
      have hMr := min_le_right (a + sumAmts ps) (b + sumAmts rs)
      have hmc := min_choice (sumAmts ps) (b - min a b + sumAmts rs)
      have hml' := min_le_left (sumAmts ps) (b - min a b + sumAmts rs)
      have hmr' := min_le_right (sumAmts ps) (b - min a b + sumAmts rs)
      rcases hMc with h | h <;> rcases hmc with h' | h' <;> linarith
    · have hapos : 0 < a - min a b :=
        lt_of_le_of_ne (sub_nonneg.mpr hml) (Ne.symm h1)
      have hps2 : ∀ pa ∈ (p, a - min a b) :: ps, 0 < pa.2 := by
        intro x hx
        rcases List.mem_cons.mp hx with h' | h'
        · subst h'; exact hapos
        · exact hps' x h'
      have := ih ((p, a - min a b) :: ps) rs
        (by simp only [List.length_cons]; omega) hps2 hrs'
      simp only [List.map_cons, List.sum_cons, sumAmts_cons] at this ⊢
      rw [this]
      have hMc := min_choice (a + sumAmts ps) (b + sumAmts rs)
      have hMl := min_le_left (a + sumAmts ps) (b + sumAmts rs)
      have hMr := min_le_right (a + sumAmts ps) (b + sumAmts rs)
      have hmc := min_choice (a - min a b + sumAmts ps) (sumAmts rs)
      have hml' := min_le_left (a - min a b + sumAmts ps) (sumAmts rs)
      have hmr' := min_le_right (a - min a b + sumAmts ps) (sumAmts rs)
      rcases hMc with h | h <;> rcases hmc with h' | h' <;> linarith
    · rcases min_sub_cases a b with h | h
      · exact absurd h h1
      · exact absurd h h3

/-! ## Glue: payers and receivers against the balances -/

theorem payersOf_pos (es : List Expense) : ∀ pa ∈ payersOf es, 0 < pa.2 := by
  intro pa hpa
  simp only [payersOf, List.mem_map, List.mem_filter] at hpa
  obtain ⟨⟨x, v⟩, ⟨_, hneg⟩, rfl⟩ := hpa
  simp only [decide_eq_true_eq] at hneg
  simpa using hneg

theorem receiversOf_pos (es : List Expense) : ∀ pa ∈ receiversOf es, 0 < pa.2 := by
  intro pa hpa
  simp only [receiversOf, List.mem_filter] at hpa
  obtain ⟨_, hpos⟩ := hpa
  simpa using hpos

theorem payersOf_keys (es : List Expense) :
    (payersOf es).map Prod.fst =
      ((balancesOf es).filter (fun pa => pa.2 < 0)).map Prod.fst := by
  rw [payersOf, List.map_map]
  rfl

theorem payersOf_keys_sublist (es : List Expense) :
    ((payersOf es).map Prod.fst).Sublist ((balancesOf es).map Prod.fst) := by
  rw [payersOf_keys]
  exact List.Sublist.map Prod.fst (List.filter_sublist _)

theorem receiversOf_keys_sublist (es : List Expense) :
    ((receiversOf es).map Prod.fst).Sublist ((balancesOf es).map Prod.fst) :=
  List.Sublist.map Prod.fst (List.filter_sublist _)

theorem payersOf_keys_nodup (es : List Expense) :
    ((payersOf es).map Prod.fst).Nodup :=
  (payersOf_keys_sublist es).nodup (balancesOf_keys_nodup es)

theorem receiversOf_keys_nodup (es : List Expense) :
    ((receiversOf es).map Prod.fst).Nodup :=
  (receiversOf_keys_sublist es).nodup (balancesOf_keys_nodup es)

theorem mem_payersOf (es : List Expense) (q : String) (v : ℚ)
    (hm : (q, v) ∈ balancesOf es) (hv : v < 0) : (q, -v) ∈ payersOf es := by
  simp only [payersOf, List.mem_map]
  exact ⟨(q, v), List.mem_filter.mpr ⟨hm, by simpa using hv⟩, rfl⟩

theorem mem_receiversOf (es : List Expense) (q : String) (v : ℚ)
    (hm : (q, v) ∈ balancesOf es) (hv : 0 < v) : (q, v) ∈ receiversOf es :=
  List.mem_filter.mpr ⟨hm, by simpa using hv⟩

theorem mem_payersOf_keys (es : List Expense) (q : String)
    (h : q ∈ (payersOf es).map Prod.fst) :
    ∃ w, (q, w) ∈ balancesOf es ∧ w < 0 := by
  rw [payersOf_keys] at h
  simp only [List.mem_map, List.mem_filter] at h
  obtain ⟨⟨x, w⟩, ⟨hm, hw⟩, hq⟩ := h
  simp only at hq
  subst hq
  exact ⟨w, hm, by simpa using hw⟩

theorem mem_receiversOf_keys (es : List Expense) (q : String)
    (h : q ∈ (receiversOf es).map Prod.fst) :
    ∃ w, (q, w) ∈ balancesOf es ∧ 0 < w := by
  simp only [receiversOf, List.mem_map, List.mem_filter] at h
  obtain ⟨⟨x, w⟩, ⟨hm, hw⟩, hq⟩ := h
  simp only at hq
  subst hq
  exact ⟨w, hm, by simpa using hw⟩

theorem keys_nodup_value_unique (l : List (String × ℚ))
    (h : (l.map Prod.fst).Nodup) (q : String) (v w : ℚ)
    (hv : (q, v) ∈ l) (hw : (q, w) ∈ l) : v = w := by
  induction l with
  | nil => simp at hv
  | cons pa rest ih =>
    simp only [List.map_cons, List.nodup_cons] at h
    rcases List.mem_cons.mp hv with h1 | h1 <;> rcases List.mem_cons.mp hw with h2 | h2
    · exact congrArg Prod.snd (h1.trans h2.symm)
    · exfalso
      apply h.1
      have hq : pa.1 = q := (congrArg Prod.fst h1).symm
      rw [hq]
      exact List.mem_map_of_mem Prod.fst h2
    · exfalso
      apply h.1
      have hq : pa.1 = q := (congrArg Prod.fst h2).symm
      rw [hq]
      exact List.mem_map_of_mem Prod.fst h1
    · exact ih h.2 h1 h2

theorem split_sum (l : List (String × ℚ)) :
    sumAmts (l.filter (fun pa => 0 < pa.2)) -
      sumAmts ((l.filter (fun pa => pa.2 < 0)).map (fun pa => (pa.1, -pa.2))) =
      (l.map Prod.snd).sum := by
  induction l with
  | nil => simp
  | cons pa rest ih =>
    obtain ⟨x, u⟩ := pa
    rcases lt_trichotomy u 0 with h | h | h
    · have h' : ¬ (0 : ℚ) < u := lt_asymm h
      simp [List.filter_cons, h, h']
      linarith [ih]
    · subst h
      simp [List.filter_cons]
      linarith [ih]
    · have h' : ¬ u < (0 : ℚ) := lt_asymm h
      simp [List.filter_cons, h, h']
      linarith [ih]

theorem receivers_sub_payers (es : List Expense) :
    sumAmts (receiversOf es) - sumAmts (payersOf es) =
      ((balancesOf es).map Prod.snd).sum :=
  split_sum (balancesOf es)

/-! ## Settlement: applying the emitted transfers to the balances -/

theorem txnsOf_settles (es : List Expense) (q : String) (v : ℚ)
    (hmem : (q, v) ∈ balancesOf es) :
    |v + paidBy q (txnsOf es) - recvBy q (txnsOf es)| ≤
      |((balancesOf es).map Prod.snd).sum| := by
  have hppos := payersOf_pos es
  have hrpos := receiversOf_pos es
  have hsum := receivers_sub_payers es
  have hT : txnsOf es =
      sweepAux ((payersOf es).length + (receiversOf es).length)
        (payersOf es) (receiversOf es) := rfl
  have habs1 := le_abs_self (((balancesOf es).map Prod.snd).sum)
  have habs2 := neg_abs_le (((balancesOf es).map Prod.snd).sum)
  have habs0 := abs_nonneg (((balancesOf es).map Prod.snd).sum)
  rcases lt_trichotomy v 0 with hv | hv | hv
  · have hqp : (q, -v) ∈ payersOf es := mem_payersOf es q v hmem hv
    have howed : owedIn q (payersOf es) = -v :=
      owedIn_eq_of_mem _ q (-v) (payersOf_keys_nodup es) hqp
    have hrzero : recvBy q (txnsOf es) = 0 := by
      apply recvBy_eq_zero
      intro t ht hq
      have hmemr := (sweepAux_names _ (payersOf es) (receiversOf es) t (hT ▸ ht)).2
      rw [hq] at hmemr
      obtain ⟨w, hwmem, hwpos⟩ := mem_receiversOf_keys es q hmemr
      have : w = v :=
        keys_nodup_value_unique _ (balancesOf_keys_nodup es) q w v hwmem hmem
      linarith
    obtain ⟨h1, h2⟩ := sweepAux_payer_residual
      ((payersOf es).length + (receiversOf es).length)
      (payersOf es) (receiversOf es) q le_rfl hppos hrpos
    rw [← hT, howed] at h1 h2
    rw [hrzero, sub_zero, abs_le]
    rcases min_choice (sumAmts (payersOf es)) (sumAmts (receiversOf es)) with h | h <;>
      rw [h] at h2 <;> constructor <;> linarith
  · subst hv
    have hrzero : recvBy q (txnsOf es) = 0 := by
      apply recvBy_eq_zero
      intro t ht hq
      have hmemr := (sweepAux_names _ (payersOf es) (receiversOf es) t (hT ▸ ht)).2
      rw [hq] at hmemr
      obtain ⟨w, hwmem, hwpos⟩ := mem_receiversOf_keys es q hmemr
      have : w = 0 :=
        keys_nodup_value_unique _ (balancesOf_keys_nodup es) q w 0 hwmem hmem
      linarith
    have hpzero : paidBy q (txnsOf es) = 0 := by
      apply paidBy_eq_zero
      intro t ht hq
      have hmemp := (sweepAux_names _ (payersOf es) (receiversOf es) t (hT ▸ ht)).1
      rw [hq] at hmemp
      obtain ⟨w, hwmem, hwneg⟩ := mem_payersOf_keys es q hmemp
      have : w = 0 :=
        keys_nodup_value_unique _ (balancesOf_keys_nodup es) q w 0 hwmem hmem
      linarith
    rw [hrzero, hpzero]
    simp
  · have hqr : (q, v) ∈ receiversOf es := mem_receiversOf es q v hmem hv
    have howed : owedIn q (receiversOf es) = v :=
      owedIn_eq_of_mem _ q v (receiversOf_keys_nodup es) hqr
    have hpzero : paidBy q (txnsOf es) = 0 := by
      apply paidBy_eq_zero
      intro t ht hq
      have hmemp := (sweepAux_names _ (payersOf es) (receiversOf es) t (hT ▸ ht)).1
      rw [hq] at hmemp
      obtain ⟨w, hwmem, hwneg⟩ := mem_payersOf_keys es q hmemp
      have : w = v :=
        keys_nodup_value_unique _ (balancesOf_keys_nodup es) q w v hwmem hmem
      linarith
    obtain ⟨h1, h2⟩ := sweepAux_receiver_residual
      ((payersOf es).length + (receiversOf es).length)
      (payersOf es) (receiversOf es) q le_rfl hppos hrpos
    rw [← hT, howed] at h1 h2
    rw [hpzero, add_zero, abs_le]
    rcases min_choice (sumAmts (payersOf es)) (sumAmts (receiversOf es)) with h | h <;>
      rw [h] at h2 <;> constructor <;> linarith

/-! ## Concrete evaluations (spec scenario 2 and edge inputs) -/

theorem scenario_balances :
    balancesOf [⟨"A", 90⟩, ⟨"B", 30⟩, ⟨"C", 0⟩] = [("A", 50), ("B", -10), ("C", -40)] := by
  simp +decide only [balancesOf, totalsOf, addExpense, List.foldl]
  norm_num only [pyRound2, roundHalfEven, ite_true, ite_false, List.map_cons, List.map_nil,
    List.sum_cons, List.sum_nil, List.length_cons, List.length_nil]

theorem scenario_txns :
    txnsOf [⟨"A", 90⟩, ⟨"B", 30⟩, ⟨"C", 0⟩] = [⟨"B", 10, "A"⟩, ⟨"C", 40, "A"⟩] := by
  unfold txnsOf payersOf receiversOf
  rw [scenario_balances]
  norm_num only [List.filter_cons, List.filter_nil, List.map_cons, List.map_nil,
    decide_True, decide_False, ite_true, ite_false]
  norm_num [sweep, sweepAux, min_def]

theorem negative_balances :
    balancesOf [⟨"A", -10⟩, ⟨"B", 10⟩] = [("A", -10), ("B", 10)] := by
  simp +decide only [balancesOf, totalsOf, addExpense, List.foldl]
  norm_num only [pyRound2, roundHalfEven, ite_true, ite_false, List.map_cons, List.map_nil,
    List.sum_cons, List.sum_nil, List.length_cons, List.length_nil]

/-! ## The claims -/

/-- C1 (amended).  For every non-empty record list with non-negative
amounts, applying every emitted transfer to the computed balances — adding
the amount to the debtor's balance and subtracting it from the creditor's,
the direction that settles a debt — leaves every participant's balance
zero within the rounding tolerance of 0.01 per participant. -/
theorem apply_transfers_settles_balances (es : List Expense) (hne : es ≠ [])
    (_hnn : ∀ e ∈ es, 0 ≤ e.amount) :
    ∀ pb ∈ balancesOf es,
      |pb.2 + paidBy pb.1 (txnsOf es) - recvBy pb.1 (txnsOf es)| ≤
        ((balancesOf es).length : ℚ) / 100 := by
  intro pb hpb
  have h1 := txnsOf_settles es pb.1 pb.2 (by simpa using hpb)
  have h2 := balances_sum_err es hne
  have hn : (0:ℚ) ≤ ((balancesOf es).length : ℚ) := Nat.cast_nonneg _
  linarith

/-- C1 witness: the amended theorem applied to scenario 2 at participant
`B`, whose balance is `-10`. -/
theorem apply_transfers_settles_balances_witness :
    ([⟨"A", 90⟩, ⟨"B", 30⟩, ⟨"C", 0⟩] : List Expense) ≠ [] ∧
    (∀ e ∈ ([⟨"A", 90⟩, ⟨"B", 30⟩, ⟨"C", 0⟩] : List Expense), 0 ≤ e.amount) ∧
    ("B", (-10 : ℚ)) ∈ balancesOf [⟨"A", 90⟩, ⟨"B", 30⟩, ⟨"C", 0⟩] ∧
    |(-10 : ℚ) + paidBy "B" (txnsOf [⟨"A", 90⟩, ⟨"B", 30⟩, ⟨"C", 0⟩]) -
        recvBy "B" (txnsOf [⟨"A", 90⟩, ⟨"B", 30⟩, ⟨"C", 0⟩])| ≤
      ((balancesOf [⟨"A", 90⟩, ⟨"B", 30⟩, ⟨"C", 0⟩]).length : ℚ) / 100 := by
  refine ⟨by simp, ?_, by rw [scenario_balances]; simp, ?_⟩
  · intro e he
    fin_cases he <;> norm_num
  · exact apply_transfers_settles_balances _ (by simp)
      (fun e he => by fin_cases he <;> norm_num)
      ("B", -10) (by rw [scenario_balances]; simp)

/-- C1 counterexample: with the claim's literal operation — subtracting
the transfer amount from the debtor's balance and adding it to the
creditor's — participant `B` of scenario 2 ends at `-20`, far outside the
tolerance, so the claim as stated is false on this input. -/
theorem literal_application_leaves_nonzero :
    ("B", (-10 : ℚ)) ∈ balancesOf [⟨"A", 90⟩, ⟨"B", 30⟩, ⟨"C", 0⟩] ∧
    ¬ (|(-10 : ℚ) - paidBy "B" (txnsOf [⟨"A", 90⟩, ⟨"B", 30⟩, ⟨"C", 0⟩]) +
          recvBy "B" (txnsOf [⟨"A", 90⟩, ⟨"B", 30⟩, ⟨"C", 0⟩])| ≤
        ((balancesOf [⟨"A", 90⟩, ⟨"B", 30⟩, ⟨"C", 0⟩]).length : ℚ) / 100) := by
  constructor
  · rw [scenario_balances]; simp
  · rw [scenario_txns, scenario_balances]
    simp +decide only [paidBy, recvBy]
    norm_num

/-- C2.  For every non-empty record list with non-negative amounts, the
computed balances sum to zero within one minor currency unit per
participant. -/
theorem balances_sum_within_tolerance (es : List Expense) (hne : es ≠ [])
    (_hnn : ∀ e ∈ es, 0 ≤ e.amount) :
    |((balancesOf es).map Prod.snd).sum| ≤ ((balancesOf es).length : ℚ) / 100 := by
  have h := balances_sum_err es hne
  have hn : (0:ℚ) ≤ ((balancesOf es).length : ℚ) := Nat.cast_nonneg _
  linarith

/-- C2 witness: the theorem applied to scenario 2. -/
theorem balances_sum_within_tolerance_witness :
    ([⟨"A", 90⟩, ⟨"B", 30⟩, ⟨"C", 0⟩] : List Expense) ≠ [] ∧
    (∀ e ∈ ([⟨"A", 90⟩, ⟨"B", 30⟩, ⟨"C", 0⟩] : List Expense), 0 ≤ e.amount) ∧
    |((balancesOf [⟨"A", 90⟩, ⟨"B", 30⟩, ⟨"C", 0⟩]).map Prod.snd).sum| ≤
      ((balancesOf [⟨"A", 90⟩, ⟨"B", 30⟩, ⟨"C", 0⟩]).length : ℚ) / 100 := by
  refine ⟨by simp, ?_, ?_⟩
  · intro e he
    fin_cases he <;> norm_num
  · exact balances_sum_within_tolerance _ (by simp)
      (fun e he => by fin_cases he <;> norm_num)

/-- C3 (amended).  On the empty record list `calculate_splits` raises no
exception, but it does not return an empty sequence either: it returns the
one-element signal list `["No expenses yet to calculate split."]`; the
underlying transfer computation is empty. -/
theorem calculate_splits_empty_signal :
    calculate_splits [] = ["No expenses yet to calculate split."] ∧
      txnsOf [] = [] :=
  ⟨rfl, rfl⟩

/-- C3 counterexample: the result on the empty list is not the empty
sequence the claim promises. -/
theorem calculate_splits_empty_not_nil : calculate_splits [] ≠ [] := by
  simp [calculate_splits]

/-- C4 (amended).  The settlement sweep contains no `InvalidState` check
and cannot fail: it is a total function that, for any debtor and creditor
magnitudes — however far their sums diverge — returns a plan transferring
exactly `min(debtor total, creditor total)`, silently leaving the
difference unsettled. -/
theorem sweep_total_is_min (ps rs : List (String × ℚ))
    (hps : ∀ pa ∈ ps, 0 < pa.2) (hrs : ∀ pa ∈ rs, 0 < pa.2) :
    ((sweep ps rs).map Txn.amount).sum = min (sumAmts ps) (sumAmts rs) :=
  sweepAux_total _ ps rs le_rfl hps hrs

/-- C4 witness: the amended theorem applied to the grossly inconsistent
balance set `{A: -100, B: +1}`. -/
theorem sweep_total_is_min_witness :
    (∀ pa ∈ [("A", (100:ℚ))], 0 < pa.2) ∧ (∀ pa ∈ [("B", (1:ℚ))], 0 < pa.2) ∧
    ((sweep [("A", (100:ℚ))] [("B", (1:ℚ))]).map Txn.amount).sum =
      min (sumAmts [("A", (100:ℚ))]) (sumAmts [("B", (1:ℚ))]) := by
  refine ⟨?_, ?_, ?_⟩
  · intro pa hpa; simp at hpa; simp [hpa]
  · intro pa hpa; simp at hpa; simp [hpa]
  · exact sweep_total_is_min _ _
      (fun pa hpa => by simp at hpa; simp [hpa])
      (fun pa hpa => by simp at hpa; simp [hpa])

/-- C4 counterexample: on balances whose debtor and creditor totals differ
by 99 — vastly more than any rounding tolerance — the sweep does not fail
with an `InvalidState` error; it returns the ordinary one-transfer plan
`[A pays 1 to B]`. -/
theorem sweep_inconsistent_no_error :
    sumAmts [("A", (100:ℚ))] - sumAmts [("B", (1:ℚ))] = 99 ∧
    sweep [("A", (100:ℚ))] [("B", (1:ℚ))] = [⟨"A", 1, "B"⟩] := by
  constructor
  · norm_num [sumAmts]
  · norm_num [sweep, sweepAux, min_def]

/-- C5 (amended).  `calculate_splits` performs no validation of amounts:
every record's amount — negative included — is summed unchanged into its
payer's total (no record is dropped or coerced), and on any non-empty
input the function proceeds to compute and format the transfers rather
than surface an `InvalidInput` error. -/
theorem records_never_dropped (es : List Expense) :
    sumAmts (totalsOf es) = (es.map Expense.amount).sum ∧
      (es ≠ [] → calculate_splits es = (txnsOf es).map formatTxn) := by
  refine ⟨totalsOf_sumAmts es, fun h => ?_⟩
  have hne : es.isEmpty = false := by simpa [List.isEmpty_iff] using h
  simp [calculate_splits, hne]

/-- C5 witness: the amended theorem applied to an input containing a
negative amount. -/
theorem records_never_dropped_witness :
    (([⟨"A", -10⟩, ⟨"B", 10⟩] : List Expense) ≠ []) ∧
    sumAmts (totalsOf [⟨"A", -10⟩, ⟨"B", 10⟩]) =
      (([⟨"A", -10⟩, ⟨"B", 10⟩] : List Expense).map Expense.amount).sum ∧
    calculate_splits [⟨"A", -10⟩, ⟨"B", 10⟩] =
      (txnsOf [⟨"A", -10⟩, ⟨"B", 10⟩]).map formatTxn := by
  refine ⟨by simp, (records_never_dropped _).1, (records_never_dropped _).2 (by simp)⟩

/-- C5 counterexample: on an input whose first record has amount `-10`,
`calculate_splits` raises nothing and computes a full settlement plan, so
the claimed immediate `InvalidInput` error does not exist. -/
theorem negative_amount_still_split :
    txnsOf [⟨"A", -10⟩, ⟨"B", 10⟩] = [⟨"A", 10, "B"⟩] := by
  unfold txnsOf payersOf receiversOf
  rw [negative_balances]
  norm_num only [List.filter_cons, List.filter_nil, List.map_cons, List.map_nil,
    decide_True, decide_False, ite_true, ite_false]
  norm_num [sweep, sweepAux, min_def]

/-- C6.  The sweep over any debtor and creditor lists emits at most
`debtorCount + creditorCount - 1` transfers when both sides are non-empty,
and exactly none when either side is empty. -/
theorem transfer_count_bound (ps rs : List (String × ℚ)) :
    (ps ≠ [] → rs ≠ [] → (sweep ps rs).length ≤ ps.length + rs.length - 1) ∧
      ((ps = [] ∨ rs = []) → (sweep ps rs).length = 0) := by
  constructor
  · intro hp hr
    have := sweepAux_length_le (ps.length + rs.length) ps rs hp hr
    rw [sweep]
    omega
  · rintro (rfl | rfl)
    · rw [sweep, sweepAux_nil_left]; rfl
    · rw [sweep, sweepAux_nil_right]; rfl

/-- C6 witness: the bound applied to one debtor and one creditor. -/
theorem transfer_count_bound_witness :
    ([("A", (1:ℚ))] : List (String × ℚ)) ≠ [] ∧
    ([("B", (1:ℚ))] : List (String × ℚ)) ≠ [] ∧
    (sweep [("A", (1:ℚ))] [("B", (1:ℚ))]).length ≤ 1 := by
  refine ⟨by simp, by simp, ?_⟩
  exact (transfer_count_bound [("A", (1:ℚ))] [("B", (1:ℚ))]).1 (by simp) (by simp)

/-- C7.  The debtor and creditor lists each keep the first-occurrence
order of payers in the input records (their key sequences are sublists of
the first-occurrence order of the payer names), and `calculate_splits` is
a pure function, so two calls on the identical record list yield the
identical transfer sequence. -/
theorem plan_order_deterministic (es : List Expense) :
    ((payersOf es).map Prod.fst).Sublist
        (specFirstOccurrenceOrder (es.map Expense.name)) ∧
      ((receiversOf es).map Prod.fst).Sublist
        (specFirstOccurrenceOrder (es.map Expense.name)) ∧
      calculate_splits es = calculate_splits es := by
  refine ⟨?_, ?_, rfl⟩
  · rw [← totalsOf_keys_firstOcc, ← balancesOf_keys]
    exact payersOf_keys_sublist es
  · rw [← totalsOf_keys_firstOcc, ← balancesOf_keys]
    exact receiversOf_keys_sublist es

/-- C8.  Every transfer `calculate_splits` ever emits has a strictly
positive amount; in particular no zero-amount transfer is emitted. -/
theorem transfers_amount_pos (es : List Expense) (t : Txn)
    (ht : t ∈ txnsOf es) : 0 < t.amount :=
  sweepAux_amount_pos _ (payersOf es) (receiversOf es)
    (payersOf_pos es) (receiversOf_pos es) t ht

/-- C8 witness: the theorem applied to the first transfer of scenario 2. -/
theorem transfers_amount_pos_witness :
    (⟨"B", 10, "A"⟩ : Txn) ∈ txnsOf [⟨"A", 90⟩, ⟨"B", 30⟩, ⟨"C", 0⟩] ∧
    (0 : ℚ) < (⟨"B", 10, "A"⟩ : Txn).amount := by
  refine ⟨by rw [scenario_txns]; simp, ?_⟩
  exact transfers_amount_pos _ _ (by rw [scenario_txns]; simp)

/-- C9.  On the records `[(A,90),(B,30),(C,0)]` the balances are
`A = +50, B = -10, C = -40` and exactly the transfers
`[B pays 10 to A, C pays 40 to A]` are emitted, in that order. -/
theorem scenario_two_exact :
    balancesOf [⟨"A", 90⟩, ⟨"B", 30⟩, ⟨"C", 0⟩] = [("A", 50), ("B", -10), ("C", -40)] ∧
    txnsOf [⟨"A", 90⟩, ⟨"B", 30⟩, ⟨"C", 0⟩] = [⟨"B", 10, "A"⟩, ⟨"C", 40, "A"⟩] :=
  ⟨scenario_balances, scenario_txns⟩

/-- C10.  The sweep terminates on every input: with fuel
`debtorCount + creditorCount` the recursion never runs out (any larger
fuel computes the same list), and the loop makes at most
`debtorCount + creditorCount` iterations, one emitted transfer each. -/
theorem sweep_terminates_within_fuel (ps rs : List (String × ℚ)) (k : Nat)
    (h : ps.length + rs.length ≤ k) :
    sweepAux k ps rs = sweep ps rs ∧
      (sweep ps rs).length ≤ ps.length + rs.length := by
  refine ⟨sweep_eq_sweepAux k ps rs h, ?_⟩
  rcases eq_or_ne ps [] with hp | hp
  · subst hp; rw [sweep, sweepAux_nil_left]; simp
  rcases eq_or_ne rs [] with hr | hr
  · subst hr; rw [sweep, sweepAux_nil_right]; simp
  have := sweepAux_length_le (ps.length + rs.length) ps rs hp hr
  rw [sweep]
  omega

/-- C10 witness: extra fuel changes nothing on a concrete input. -/
theorem sweep_terminates_within_fuel_witness :
    ([("A", (1:ℚ))] : List (String × ℚ)).length + [("B", (1:ℚ))].length ≤ 5 ∧
    (sweepAux 5 [("A", (1:ℚ))] [("B", (1:ℚ))] = sweep [("A", (1:ℚ))] [("B", (1:ℚ))] ∧
      (sweep [("A", (1:ℚ))] [("B", (1:ℚ))]).length ≤
        ([("A", (1:ℚ))] : List (String × ℚ)).length + [("B", (1:ℚ))].length) := by
  refine ⟨by simp, ?_⟩
  exact sweep_terminates_within_fuel _ _ 5 (by simp)
